import Mathlib

/-!
Verification development for the cmdkit CLI (src/cmdkit/main.py, src/cmdkit/storage.py).

The Python source is shallowly embedded as executable Lean definitions:

* the regex `\{\{(\w+)\}\}` scanning used by `extract_placeholders` (main.py:126-133)
  and by the `re.sub` rewriting step of `render_commands` (main.py:141) is modelled by
  `matchPH` / `scanPH` / `subPH`;
* the Jinja2 `Template(...).render(**values)` call (main.py:142-143) is modelled by
  `jinjaRender`, restricted to the template fragment relevant here: `{{ expr }}` where
  `expr` is evaluated by `evalExpr` — a constant-literal keyword (`true`/`false`/`none`
  and their capitalisations render as `True`/`False`/`None`, as in Jinja2), the bare
  operator keyword `not` (a syntax error, since Jinja2 then expects an operand), any
  other identifier (a name lookup; a missing name renders as the empty string, which is
  Jinja2's default `Undefined` behaviour), an integer literal without leading zeros
  (rendered verbatim), or a simple quoted string literal (rendering its content, so a
  template can rebuild brace characters); any other expression is modelled as
  `templateSyntaxError`, and `{% %}` / `{# #}` blocks are not modelled (left as literal
  text).  Characters are treated as ASCII (`\w` = letter, digit or underscore);
* the `--key value` trailing-argument scanner `collect_placeholder_values`
  (main.py:147-174) is modelled by `parse_cli_args` / `prompt_missing`, with the
  interactive `input()` replaced by an oracle `promptFn` and the list of prompted keys
  returned as a trace;
* the execution engine of `run` (main.py:213-265) is modelled by `execute`, with
  `subprocess.run(cmd, shell=True).returncode` replaced by an oracle
  `shell : Nat → String → Nat` mapping the spawn counter (0-based, in spawn order) and
  command line to an exit status; the `spawned` field records every command line handed
  to the shell, in order;
* the persisted registry (storage.py) is passed in as an explicit `Config` value; the
  `save` command (main.py:88-123) becomes a pure state transformer returning the
  process exit code and the new registry state.

Python dicts keyed by strings are modelled as functions `String → Option String`
(`insertVal` is dict assignment) or, for the registry whose insertion order is
observable, as association lists.  Python sets of strings are modelled as duplicate-free
lists; only membership is meaningful.  Console output is not modelled except for the
dry-run preview (main.py:215-223), whose exact printed lines (rich markup included) are
reproduced by `dryRunPreview`.

Recursions that walk a string by more than one character per step are written with an
explicit fuel argument (always called with fuel = length of the input, which the
adequacy lemmas show is enough) so that every definition evaluates by kernel reduction.
-/

namespace Cmdkit

/-- Word character of the regex `\w`, ASCII interpretation: letter, digit or underscore. -/
def isWordChar (c : Char) : Bool := c.isAlphanum || c = '_'

/-- Match of the regex `\{\{(\w+)\}\}` at the start of `l`: two opening braces, a
nonempty greedy run of word characters, two closing braces.  Returns the captured word
and the remainder of the input after the match.  Greedy matching needs no backtracking
here because a word character is never `\x7d`. -/
def matchPH : List Char → Option (List Char × List Char)
  | c1 :: c2 :: rest =>
    if c1 = '{' ∧ c2 = '{' then
      let w := rest.takeWhile isWordChar
      let r := rest.dropWhile isWordChar
      if w ≠ [] ∧ r.head? = some '}' ∧ r.tail.head? = some '}' then
        some (w, r.tail.tail)
      else none
    else none
  | [_] => none
  | [] => none

/-- One left-to-right non-overlapping scan of Python's `re.findall`: try a match at the
current position; on success continue after the match, on failure advance one
character. -/
def scanPHGo : Nat → List Char → List (List Char)
  | _, [] => []
  | 0, _ :: _ => []
  | fuel + 1, c :: cs =>
    match matchPH (c :: cs) with
    | some (w, r) => w :: scanPHGo fuel r
    | none => scanPHGo fuel cs

/-- All captures of `re.findall(r"\{\{(\w+)\}\}", ·)`, in order of occurrence. -/
def scanPH (l : List Char) : List (List Char) := scanPHGo l.length l

/-- The rewriting `re.sub(r"\{\{(\w+)\}\}", r"{{ \1 }}", ·)` of main.py:141: every
match is replaced by the same placeholder with one space inside the braces; all other
characters are copied. -/
def subPHGo : Nat → List Char → List Char
  | _, [] => []
  | 0, l => l
  | fuel + 1, c :: cs =>
    match matchPH (c :: cs) with
    | some (w, r) => '{' :: '{' :: ' ' :: (w ++ ' ' :: '}' :: '}' :: subPHGo fuel r)
    | none => c :: subPHGo fuel cs

/-- `re.sub(r"\{\{(\w+)\}\}", r"{{ \1 }}", cmd)` on a character list. -/
def subPH (l : List Char) : List Char := subPHGo l.length l

/-- Scans like `subPH` and checks that every opening-brace character of the input lies
inside a `\{\{(\w+)\}\}` match: any `\x7b` in literal position makes it false. -/
def onlyPHOpensGo : Nat → List Char → Bool
  | _, [] => true
  | 0, _ :: _ => false
  | fuel + 1, c :: cs =>
    match matchPH (c :: cs) with
    | some (_, r) => onlyPHOpensGo fuel r
    | none => (c ≠ '{') && onlyPHOpensGo fuel cs

/-- Every opening brace of the command occurs inside a `\x7b\x7bword\x7d\x7d`
placeholder. -/
def onlyPHOpens (s : String) : Bool := onlyPHOpensGo s.toList.length s.toList

/-- The only failure the modelled Jinja2 fragment can raise. -/
inductive JinjaError where
  | templateSyntaxError
deriving DecidableEq

/-- Split at the first `\x7d\x7d` (Jinja2's `variable_end`): returns the content before
it and the rest after it, or `none` when the template ends inside the expression. -/
def closeSplit : List Char → Option (List Char × List Char)
  | [] => none
  | c :: rest =>
    if c = '}' ∧ rest.head? = some '}' then some ([], rest.tail)
    else (closeSplit rest).map fun p => (c :: p.1, p.2)

/-- Strip leading and trailing whitespace, as Jinja2's lexer does around an
expression. -/
def trimWs (l : List Char) : List Char :=
  ((l.dropWhile Char.isWhitespace).reverse.dropWhile Char.isWhitespace).reverse

/-- A Python identifier made of `\w` characters: nonempty, does not start with a
digit. -/
def isIdentChars : List Char → Bool
  | [] => false
  | c :: cs => (c.isAlpha || c = '_') && cs.all isWordChar

/-- A decimal integer literal without leading zeros (Jinja2 renders `{{ 12 }}` as
`12`). -/
def isIntLit : List Char → Bool
  | [] => false
  | [c] => c.isDigit
  | c :: cs => c.isDigit && c ≠ '0' && cs.all Char.isDigit

/-- The constant literals of Jinja2's expression parser: `true`, `false`, `none` and
their capitalised variants are not name lookups; they render as Python's `str` of the
constant (`{{ true }}` gives `True`, `{{ none }}` gives `None`). -/
def jinjaKeywordLit (e : String) : Option String :=
  if e = "true" ∨ e = "True" then some "True"
  else if e = "false" ∨ e = "False" then some "False"
  else if e = "none" ∨ e = "None" then some "None"
  else none

/-- The operator word `not`: alone in an expression Jinja2's parser consumes it as the
unary operator, expects an operand and raises.  (The other operator and statement
keywords — `and`, `or`, `in`, `is`, `if`, `for`, ... — are parsed as plain name lookups
when they start an expression, so they are not special here.) -/
def jinjaReservedOp (e : String) : Bool := e = "not"

/-- A simple Jinja2 string literal: a run enclosed in single quotes (code point 39) or
double quotes (code point 34), with no embedded quote of the same kind and no backslash
(code point 92); it renders as its content, so `\x7b\x7b "\x7b" \x7d\x7d` renders as a
lone opening brace.  Escape sequences and literals containing `\x7d\x7d` are not
modelled. -/
def isStrLit : List Char → Option (List Char)
  | q :: rest =>
    if (q = Char.ofNat 39 ∨ q = Char.ofNat 34) ∧ rest.getLast? = some q ∧
        rest.dropLast.all (fun c => ¬ (c = q ∨ c = Char.ofNat 92)) then
      some rest.dropLast
    else none
  | [] => none

/-- Evaluation of one `\x7b\x7b expr \x7d\x7d` expression: a constant literal renders
as its Python string, the lone operator word `not` is a syntax error, any other
identifier is looked up in `values` (a missing name renders as the empty string,
Jinja2's default `Undefined`), an integer literal without leading zeros renders
verbatim, a simple quoted string literal renders as its content, and any other
expression is modelled as a `templateSyntaxError` (a conservative restriction of
Jinja2's full expression language). -/
def evalExpr (values : String → Option String) (e : List Char) :
    Except JinjaError (List Char) :=
  if isIdentChars e then
    match jinjaKeywordLit e.asString with
    | some lit => .ok lit.toList
    | none =>
      if jinjaReservedOp e.asString then .error .templateSyntaxError
      else .ok ((values e.asString).getD "").toList
  else if isIntLit e then .ok e
  else
    match isStrLit e with
    | some s => .ok s
    | none => .error .templateSyntaxError

/-- The modelled `jinja2.Template(template).render(**values)`: text is copied; at
`\x7b\x7b` the expression up to the closing `\x7d\x7d` is evaluated by `evalExpr` and
its result inserted.  An unterminated expression is a syntax error. -/
def jinjaGo (values : String → Option String) : Nat → List Char → Except JinjaError (List Char)
  | _, [] => .ok []
  | 0, _ :: _ => .error .templateSyntaxError
  | fuel + 1, c :: rest =>
    if c = '{' ∧ rest.head? = some '{' then
      match closeSplit rest.tail with
      | none => .error .templateSyntaxError
      | some (content, rest') =>
        match evalExpr values (trimWs content) with
        | .error err => .error err
        | .ok lit =>
          match jinjaGo values fuel rest' with
          | .error err => .error err
          | .ok out => .ok (lit ++ out)
    else
      match jinjaGo values fuel rest with
      | .error err => .error err
      | .ok out => .ok (c :: out)

/-- Render one template with Jinja2 (see `jinjaGo`). -/
def jinjaRender (values : String → Option String) (l : List Char) :
    Except JinjaError (List Char) :=
  jinjaGo values l.length l

/-- `extract_placeholders` (main.py:126-133): the set of distinct `\{\{(\w+)\}\}`
capture names over all commands, modelled as a duplicate-free list. -/
def extract_placeholders (commands : List String) : List String :=
  ((commands.map fun cmd => (scanPH cmd.toList).map fun w => w.asString).flatten).dedup

/-- `render_commands` (main.py:136-144): each command is rewritten by `subPH` and then
rendered by Jinja2; the first template error aborts the whole call (the Python
exception propagates). -/
def render_commands : List String → (String → Option String) → Except JinjaError (List String)
  | [], _ => .ok []
  | cmd :: rest, values =>
    match jinjaRender values (subPH cmd.toList) with
    | .error e => .error e
    | .ok out =>
      match render_commands rest values with
      | .error e => .error e
      | .ok outs => .ok (out.asString :: outs)

/-- Python dict assignment `values[key] = v` on a mapping modelled as a function. -/
def insertVal (values : String → Option String) (key v : String) : String → Option String :=
  fun k => if k = key then some v else values k

/-- Python's `arg.startswith("--")`, computed on the character list. -/
def startsDashDash (s : String) : Bool :=
  match s.toList with
  | '-' :: '-' :: _ => true
  | _ => false

/-- Python's `arg[2:]`: the key named by a `--key` token. -/
def dropDashes (s : String) : String := (s.toList.drop 2).asString

/-- The `while i < len(cli_args)` scanner of `collect_placeholder_values`
(main.py:155-166): a `--key` token followed by a token not starting with `--` records
that value (overwriting an earlier one) and advances by two; any other token advances
by one and records nothing. -/
def parse_cli_args : List String → (String → Option String) → String → Option String
  | [], values => values
  | [_], values => values
  | arg :: next :: rest, values =>
    if startsDashDash arg then
      if startsDashDash next then
        parse_cli_args (next :: rest) values
      else
        parse_cli_args rest (insertVal values (dropDashes arg) next)
    else
      parse_cli_args (next :: rest) values

/-- Lexicographic comparison of strings by code point, Python's `<=` used by
`sorted`. -/
def charListLe : List Char → List Char → Bool
  | [], _ => true
  | _ :: _, [] => false
  | a :: as, b :: bs => a.toNat < b.toNat || (a.toNat == b.toNat && charListLe as bs)

/-- String order backing Python's `sorted`. -/
def strLe (a b : String) : Bool := charListLe a.toList b.toList

/-- Insert into an already sorted list, keeping it sorted. -/
def insertSorted (s : String) : List String → List String
  | [] => [s]
  | t :: ts => if strLe s t then s :: t :: ts else t :: insertSorted s ts

/-- Python's `sorted(·)` on a list of strings (insertion sort; the result is the unique
sorted permutation, so the algorithm choice is immaterial). -/
def sortStrings : List String → List String
  | [] => []
  | s :: ss => insertSorted s (sortStrings ss)

/-- The prompting loop of `collect_placeholder_values` (main.py:169-172): for every
placeholder not yet in the mapping, in the order of the (sorted) list, obtain a value
from the interactive prompt (the oracle `promptFn`) and record it.  Also returns the
keys that were prompted, in prompting order. -/
def prompt_missing : List String → (String → Option String) → (String → String) →
    (String → Option String) × List String
  | [], values, _ => (values, [])
  | p :: ps, values, promptFn =>
    if (values p).isSome then prompt_missing ps values promptFn
    else
      let r := prompt_missing ps (insertVal values p (promptFn p)) promptFn
      (r.1, p :: r.2)

/-- `collect_placeholder_values` (main.py:147-174): parse the trailing CLI tokens, then
prompt for every placeholder still missing, in sorted order. -/
def collect_placeholder_values (placeholders : List String) (cli_args : List String)
    (promptFn : String → String) : (String → Option String) × List String :=
  prompt_missing (sortStrings placeholders) (parse_cli_args cli_args fun _ => none) promptFn

/-- Result of the execution stage of `run` (main.py:213-265).  `exitCode` is the
process exit code (0 on the fall-through success path), `spawned` the command lines
handed to `subprocess.run` in order, `failed` the `(index, command, returncode)`
triples collected in RunAll mode, `preview` the lines printed by the dry-run branch. -/
structure ExecResult where
  exitCode : Nat
  spawned : List String
  failed : List (Nat × String × Nat)
  preview : List String
deriving DecidableEq

/-- The RunAll loop (main.py:249-257): spawn every command in order (`k` is the 0-based
spawn counter, the printed index is `k + 1`), collecting the failures.  Returns
(spawned commands, failed triples). -/
def runAllGo (shell : Nat → String → Nat) : Nat → List String → List String × List (Nat × String × Nat)
  | _, [] => ([], [])
  | k, cmd :: rest =>
    let code := shell k cmd
    let r := runAllGo shell (k + 1) rest
    (cmd :: r.1, if code ≠ 0 then (k + 1, cmd, code) :: r.2 else r.2)

/-- The per-command lines of the dry-run preview (main.py:222-223), with 1-based
indices and the rich markup of the source. -/
def previewLines : Nat → List String → List String
  | _, [] => []
  | i, cmd :: rest =>
    ("  [dim][" ++ toString i ++ "][/dim] [cyan]" ++ cmd ++ "[/cyan]") :: previewLines (i + 1) rest

/-- The lines printed by the dry-run branch (main.py:215-223): a header, a mode line
naming the chain operator, then each rendered command with its index. -/
def dryRunPreview (workflow_name : String) (stop_on_fail stop_on_success : Bool)
    (rendered : List String) : List String :=
  ("\n[bold]Dry run: " ++ workflow_name ++ "[/bold]") ::
    (if stop_on_fail then "  [dim]Mode:[/dim] stop on first failure (&&)"
     else if stop_on_success then "  [dim]Mode:[/dim] stop on first success (||)"
     else "  [dim]Mode:[/dim] run all commands") ::
    previewLines 1 rendered

/-- The execution stage of `run` (main.py:213-265), after rendering: dry-run prints a
preview and exits 0 spawning nothing; stop-on-fail joins with `" && "` and spawns the
chain once, propagating a non-zero exit code; stop-on-success does the same with
`" || "`; the default runs every command and exits 1 iff any failed. -/
def execute (workflow_name : String) (dry stop_on_fail stop_on_success : Bool)
    (rendered : List String) (shell : Nat → String → Nat) : ExecResult :=
  if dry then
    { exitCode := 0, spawned := [], failed := [],
      preview := dryRunPreview workflow_name stop_on_fail stop_on_success rendered }
  else if stop_on_fail then
    let chained := String.intercalate " && " rendered
    let code := shell 0 chained
    { exitCode := if code ≠ 0 then code else 0, spawned := [chained], failed := [], preview := [] }
  else if stop_on_success then
    let chained := String.intercalate " || " rendered
    let code := shell 0 chained
    { exitCode := if code ≠ 0 then code else 0, spawned := [chained], failed := [], preview := [] }
  else
    let r := runAllGo shell 0 rendered
    { exitCode := if r.2 ≠ [] then 1 else 0, spawned := r.1, failed := r.2, preview := [] }

/-- A stored workflow: ordered command templates and tags (storage schema of
main.py:114-117). -/
structure Workflow where
  commands : List String
  tags : List String
deriving DecidableEq

/-- The persisted registry (`config["workflows"]`), an insertion-ordered mapping from
workflow name to workflow. -/
structure Config where
  workflows : List (String × Workflow)
deriving DecidableEq

/-- The `save` command (main.py:88-123) as a state transformer on the registry:
returns the process exit code and the new registry.  An empty command list or a name
already present fails with exit code 1 and leaves the registry untouched; otherwise
the workflow is inserted with empty tags and the exit code is 0. -/
def save (name : String) (commands : List String) (config : Config) : Nat × Config :=
  if commands = [] then (1, config)
  else if (List.lookup name config.workflows).isSome then (1, config)
  else (0, { workflows := config.workflows ++ [(name, { commands := commands, tags := [] })] })

/-- Observable outcome of one `run` invocation (main.py:180-265).  `configLoaded`
records whether the path reached `load_config()`; `spawned`, `failed`, `preview` come
from the execution stage; `prompted` lists the placeholders that were interactively
prompted. -/
structure RunResult where
  exitCode : Nat
  configLoaded : Bool
  spawned : List String
  failed : List (Nat × String × Nat)
  prompted : List String
  preview : List String
deriving DecidableEq

/-- The `run` command (main.py:180-265): mutually exclusive mode flags are rejected
with exit code 1 before the registry is loaded; a missing workflow name exits 1; then
placeholders are extracted, values collected, commands rendered (a Jinja2 error
propagates as an uncaught exception, the `.error` case) and the execution stage runs. -/
def run (workflow_name : String) (dry stop_on_fail stop_on_success : Bool)
    (ctx_args : List String) (config : Config) (shell : Nat → String → Nat)
    (promptFn : String → String) : Except JinjaError RunResult :=
  if stop_on_fail && stop_on_success then
    .ok { exitCode := 1, configLoaded := false, spawned := [], failed := [],
          prompted := [], preview := [] }
  else
    match List.lookup workflow_name config.workflows with
    | none =>
      .ok { exitCode := 1, configLoaded := true, spawned := [], failed := [],
            prompted := [], preview := [] }
    | some workflow =>
      let placeholders := extract_placeholders workflow.commands
      let vp := collect_placeholder_values placeholders ctx_args promptFn
      match render_commands workflow.commands vp.1 with
      | .error e => .error e
      | .ok rendered =>
        let er := execute workflow_name dry stop_on_fail stop_on_success rendered shell
        .ok { exitCode := er.exitCode, configLoaded := true, spawned := er.spawned,
              failed := er.failed, prompted := vp.2, preview := er.preview }

/-! ### Lemmas about the placeholder regex -/

/-- Two adjacent opening braces somewhere in the list — the only way any `\{\{(\w+)\}\}`
match or any Jinja2 expression can start. -/
def hasOpen : List Char → Bool
  | [] => false
  | [_] => false
  | c :: c' :: rest => (c == '{' && c' == '{') || hasOpen (c' :: rest)

theorem hasOpen_cons (a : Char) (l : List Char) :
    hasOpen (a :: l) = ((a == '{' && l.head? == some '{') || hasOpen l) := by
  cases l with
  | nil => simp [hasOpen]
  | cons c rest => simp [hasOpen]

theorem hasOpen_append {a b : List Char} (ha : '{' ∉ a) (hb : hasOpen b = false) :
    hasOpen (a ++ b) = false := by
  induction a with
  | nil => simpa using hb
  | cons c cs ih =>
    have hc : c ≠ '{' := fun h => ha (h ▸ List.mem_cons_self c cs)
    have ih' := ih fun h => ha (List.mem_cons_of_mem c h)
    rw [List.cons_append, hasOpen_cons]
    simp [hc, ih']

theorem matchPH_eq_some {l w r : List Char} (h : matchPH l = some (w, r)) :
    l = '{' :: '{' :: (w ++ '}' :: '}' :: r) ∧ w ≠ [] ∧ w.all isWordChar = true := by
  match l with
  | [] => simp [matchPH] at h
  | [_] => simp [matchPH] at h
  | c1 :: c2 :: rest =>
    rw [matchPH] at h
    split at h
    · rename_i hbb
      obtain ⟨hc1, hc2⟩ := hbb
      subst hc1; subst hc2
      dsimp only at h
      split at h
      · rename_i hcond
        obtain ⟨hw, h1, h2⟩ := hcond
        simp only [Option.some.injEq, Prod.mk.injEq] at h
        obtain ⟨hw', hr'⟩ := h
        have hsplit := List.takeWhile_append_dropWhile (p := isWordChar) (l := rest)
        obtain ⟨t, ht⟩ : ∃ t, rest.dropWhile isWordChar = '}' :: t := by
          cases hdm : rest.dropWhile isWordChar with
          | nil => rw [hdm] at h1; simp at h1
          | cons a t => rw [hdm] at h1; simp at h1; exact ⟨t, by rw [h1]⟩
        obtain ⟨t', ht'⟩ : ∃ t', t = '}' :: t' := by
          rw [ht] at h2
          cases hdm : t with
          | nil => rw [hdm] at h2; simp at h2
          | cons a t' => rw [hdm] at h2; simp at h2; exact ⟨t', by rw [h2]⟩
        subst ht'
        rw [ht] at hr' hsplit
        simp only [List.tail_cons] at hr'
        refine ⟨?_, ?_, ?_⟩
        · rw [← hw', ← hr', hsplit]
        · rw [← hw']; exact hw
        · rw [← hw']
          exact List.all_eq_true.mpr fun x hx => List.mem_takeWhile_imp hx
      · exact absurd h (by simp)
    · exact absurd h (by simp)

theorem matchPH_start {l w r : List Char} (h : matchPH l = some (w, r)) :
    hasOpen l = true := by
  obtain ⟨hl, -, -⟩ := matchPH_eq_some h
  subst hl
  simp [hasOpen]

theorem matchPH_length {l w r : List Char} (h : matchPH l = some (w, r)) :
    r.length + 5 ≤ l.length := by
  obtain ⟨hl, hw, -⟩ := matchPH_eq_some h
  have : 1 ≤ w.length := by
    cases w with
    | nil => exact absurd rfl hw
    | cons a as => simp
  subst hl
  simp [List.length_append]
  omega

theorem hasOpen_of_tail {c : Char} {l : List Char} (h : hasOpen l = false) :
    hasOpen (l.tail) = false := by
  cases l with
  | nil => simpa using h
  | cons a as =>
    rw [hasOpen_cons] at h
    simpa using (Bool.or_eq_false_iff.mp h).2

theorem scanPHGo_eq_nil {fuel : Nat} {l : List Char} (hf : l.length ≤ fuel)
    (h : hasOpen l = false) : scanPHGo fuel l = [] := by
  induction fuel generalizing l with
  | zero =>
    cases l with
    | nil => rfl
    | cons c cs => simp at hf
  | succ fuel ih =>
    cases l with
    | nil => rfl
    | cons c cs =>
      rw [scanPHGo]
      match hm : matchPH (c :: cs) with
      | some (w, r) => exact absurd (matchPH_start hm) (by simp [h])
      | none =>
        have : hasOpen cs = false := by
          have := hasOpen_of_tail (c := c) (l := c :: cs) h
          simpa using this
        exact ih (by simpa using Nat.le_of_succ_le_succ hf) this

theorem scanPH_eq_nil {l : List Char} (h : hasOpen l = false) : scanPH l = [] :=
  scanPHGo_eq_nil (Nat.le_refl _) h

/-! ### Lemmas about the Jinja2 model -/

theorem closeSplit_length : ∀ {l a b : List Char}, closeSplit l = some (a, b) →
    a.length + b.length + 2 = l.length := by
  intro l
  induction l with
  | nil => intro a b h; simp [closeSplit] at h
  | cons c rest ih =>
    intro a b h
    rw [closeSplit] at h
    split at h
    · rename_i hc
      obtain ⟨-, hh⟩ := hc
      simp only [Option.some.injEq, Prod.mk.injEq] at h
      obtain ⟨ha, hb⟩ := h
      obtain ⟨t, ht⟩ : ∃ t, rest = '}' :: t := by
        cases hr : rest with
        | nil => rw [hr] at hh; simp at hh
        | cons a' t => rw [hr] at hh; simp at hh; exact ⟨t, by rw [hh]⟩
      subst ht
      simp [← ha, ← hb]
    · cases hcs : closeSplit rest with
      | none => rw [hcs] at h; simp at h
      | some p =>
        rw [hcs] at h
        simp only [Option.map_some', Option.some.injEq] at h
        have := ih (a := p.1) (b := p.2) (by rw [hcs])
        cases h
        simp only [List.length_cons]
        omega

theorem jinjaGo_nil (values : String → Option String) (fuel : Nat) :
    jinjaGo values fuel [] = .ok [] := by
  cases fuel <;> rfl

theorem jinjaGo_fuel_eq (values : String → Option String) :
    ∀ (n f g : Nat) (l : List Char), l.length ≤ f → l.length ≤ g → l.length ≤ n →
      jinjaGo values f l = jinjaGo values g l := by
  intro n
  induction n using Nat.strong_induction_on with
  | _ n ih =>
    intro f g l hf hg hn
    match l with
    | [] => rw [jinjaGo_nil, jinjaGo_nil]
    | c :: rest =>
      match f, g with
      | 0, _ => simp at hf
      | _ + 1, 0 => simp at hg
      | f + 1, g + 1 =>
        simp only [jinjaGo]
        by_cases hb : c = '{' ∧ rest.head? = some '{'
        · rw [if_pos hb, if_pos hb]
          obtain ⟨-, hh⟩ := hb
          obtain ⟨t, ht⟩ : ∃ t, rest = '{' :: t := by
            cases hr : rest with
            | nil => rw [hr] at hh; simp at hh
            | cons a' t => rw [hr] at hh; simp at hh; exact ⟨t, by rw [hh]⟩
          cases hcs : closeSplit rest.tail with
          | none => rfl
          | some p =>
            obtain ⟨content, rest'⟩ := p
            have hlen := closeSplit_length hcs
            have hr' : rest'.length < n ∧ rest'.length ≤ f ∧ rest'.length ≤ g := by
              subst ht
              simp only [List.tail_cons] at hlen
              simp only [List.length_cons] at hf hg hn
              omega
            have heq := ih rest'.length hr'.1 f g rest' hr'.2.1 hr'.2.2 (Nat.le_refl _)
            dsimp only
            rw [heq]
        · rw [if_neg hb, if_neg hb]
          have hr : rest.length < n ∧ rest.length ≤ f ∧ rest.length ≤ g := by
            simp only [List.length_cons] at hf hg hn
            omega
          rw [ih rest.length hr.1 f g rest hr.2.1 hr.2.2 (Nat.le_refl _)]

theorem jinjaRender_fuel {fuel : Nat} {l : List Char} (hf : l.length ≤ fuel) :
    jinjaGo values fuel l = jinjaRender values l :=
  jinjaGo_fuel_eq values fuel fuel l.length l hf (Nat.le_refl _) hf

theorem isIntLit_no_open {l : List Char} (h : isIntLit l = true) : '{' ∉ l := by
  intro hmem
  match l with
  | [c] =>
    rw [isIntLit] at h
    simp only [List.mem_singleton] at hmem
    subst hmem
    exact absurd h (by decide)
  | c :: c2 :: cs =>
    simp only [isIntLit, Bool.and_eq_true, decide_eq_true_eq] at h
    obtain ⟨⟨hc, -⟩, hall⟩ := h
    rcases List.mem_cons.mp hmem with h1 | h2
    · rw [← h1] at hc; exact absurd hc (by decide)
    · have := List.all_eq_true.mp hall _ h2
      exact absurd this (by decide)

theorem jinjaKeywordLit_no_brace {e s : String} (h : jinjaKeywordLit e = some s) :
    '{' ∉ s.toList := by
  rw [jinjaKeywordLit] at h
  split at h
  · injection h with h; subst h; decide
  · split at h
    · injection h with h; subst h; decide
    · split at h
      · injection h with h; subst h; decide
      · cases h

/-- Evaluating a word-character expression never produces an opening brace, as long as
every supplied value is free of the character `\x7b`: the possible results are a
constant literal, a looked-up value and an integer literal (a word run cannot be a
string literal, which starts with a quote). -/
theorem evalExpr_word_no_brace {values : String → Option String}
    (hv : ∀ k s, values k = some s → '{' ∉ s.toList)
    {w lit : List Char} (hw : w.all isWordChar = true)
    (h : evalExpr values w = .ok lit) : '{' ∉ lit := by
  rw [evalExpr] at h
  by_cases hid : isIdentChars w
  · rw [if_pos hid] at h
    cases hkw : jinjaKeywordLit w.asString with
    | some s =>
      rw [hkw] at h
      injection h with h
      subst h
      exact jinjaKeywordLit_no_brace hkw
    | none =>
      rw [hkw] at h
      by_cases hres : jinjaReservedOp w.asString
      · rw [if_pos hres] at h; cases h
      · rw [if_neg hres] at h
        injection h with h
        subst h
        cases hval : values w.asString with
        | none => simp [hval]
        | some s => simpa [hval] using hv _ s hval
  · rw [if_neg hid] at h
    by_cases hint : isIntLit w
    · rw [if_pos hint] at h
      injection h with h
      subst h
      exact isIntLit_no_open hint
    · rw [if_neg hint] at h
      have hsl : isStrLit w = none := by
        match w with
        | [] => rfl
        | c :: cs =>
          rw [isStrLit, if_neg]
          intro hcond
          rcases hcond.1 with rfl | rfl
          · rw [List.all_cons] at hw
            exact absurd (Bool.and_eq_true .. ▸ hw).1 (by decide)
          · rw [List.all_cons] at hw
            exact absurd (Bool.and_eq_true .. ▸ hw).1 (by decide)
      rw [hsl] at h
      cases h

theorem toList_asString (l : List Char) : (l.asString).toList = l := rfl

/-- A list of brace-free strings has no placeholders at all. -/
theorem extract_placeholders_eq_nil {out : List String}
    (h : ∀ o ∈ out, hasOpen o.toList = false) : extract_placeholders out = [] := by
  rw [extract_placeholders]
  have hfl : ((out.map fun cmd => (scanPH cmd.toList).map fun w => w.asString).flatten) = [] := by
    rw [List.flatten_eq_nil_iff]
    intro l hl
    obtain ⟨cmd, hcmd, rfl⟩ := List.mem_map.mp hl
    rw [scanPH_eq_nil (h cmd hcmd)]
    rfl
  rw [hfl]
  rfl

/-! ### Structure of `subPH` and `jinjaRender` on templates built around one
placeholder, used to settle the `MissingValue` claim. -/

theorem subPHGo_nil (fuel : Nat) : subPHGo fuel [] = [] := by
  cases fuel <;> rfl

theorem subPHGo_fuel_eq : ∀ (n f g : Nat) (l : List Char), l.length ≤ f → l.length ≤ g →
    l.length ≤ n → subPHGo f l = subPHGo g l := by
  intro n
  induction n using Nat.strong_induction_on with
  | _ n ih =>
    intro f g l hf hg hn
    match l with
    | [] => rw [subPHGo_nil, subPHGo_nil]
    | c :: cs =>
      match f, g with
      | 0, _ => simp at hf
      | _ + 1, 0 => simp at hg
      | f + 1, g + 1 =>
        simp only [subPHGo]
        cases hm : matchPH (c :: cs) with
        | none =>
          have hl : cs.length < n ∧ cs.length ≤ f ∧ cs.length ≤ g := by
            simp only [List.length_cons] at hf hg hn
            omega
          rw [ih cs.length hl.1 f g cs hl.2.1 hl.2.2 (Nat.le_refl _)]
        | some p =>
          obtain ⟨w, r⟩ := p
          have hlen := matchPH_length hm
          have hl : r.length < n ∧ r.length ≤ f ∧ r.length ≤ g := by
            simp only [List.length_cons] at hf hg hn hlen
            omega
          dsimp only
          rw [ih r.length hl.1 f g r hl.2.1 hl.2.2 (Nat.le_refl _)]

theorem subPH_fuel {fuel : Nat} {l : List Char} (hf : l.length ≤ fuel) :
    subPHGo fuel l = subPH l :=
  subPHGo_fuel_eq fuel fuel l.length l hf (Nat.le_refl _) hf

theorem onlyPHOpensGo_nil (fuel : Nat) : onlyPHOpensGo fuel [] = true := by
  cases fuel <;> rfl

theorem onlyPHOpensGo_fuel_eq : ∀ (n f g : Nat) (l : List Char), l.length ≤ f →
    l.length ≤ g → l.length ≤ n → onlyPHOpensGo f l = onlyPHOpensGo g l := by
  intro n
  induction n using Nat.strong_induction_on with
  | _ n ih =>
    intro f g l hf hg hn
    match l with
    | [] => rw [onlyPHOpensGo_nil, onlyPHOpensGo_nil]
    | c :: cs =>
      match f, g with
      | 0, _ => simp at hf
      | _ + 1, 0 => simp at hg
      | f + 1, g + 1 =>
        simp only [onlyPHOpensGo]
        cases hm : matchPH (c :: cs) with
        | none =>
          have hl : cs.length < n ∧ cs.length ≤ f ∧ cs.length ≤ g := by
            simp only [List.length_cons] at hf hg hn
            omega
          rw [ih cs.length hl.1 f g cs hl.2.1 hl.2.2 (Nat.le_refl _)]
        | some p =>
          obtain ⟨w, r⟩ := p
          have hlen := matchPH_length hm
          have hl : r.length < n ∧ r.length ≤ f ∧ r.length ≤ g := by
            simp only [List.length_cons] at hf hg hn hlen
            omega
          dsimp only
          rw [ih r.length hl.1 f g r hl.2.1 hl.2.2 (Nat.le_refl _)]

theorem closeSplit_append {a b : List Char} (ha : '}' ∉ a) :
    closeSplit (a ++ '}' :: '}' :: b) = some (a, b) := by
  induction a with
  | nil =>
    rw [List.nil_append, closeSplit]
    rw [if_pos ⟨rfl, rfl⟩]
    rfl
  | cons c cs ih =>
    have hc : c ≠ '}' := fun h => ha (h ▸ List.mem_cons_self c cs)
    have ih' := ih fun h => ha (List.mem_cons_of_mem c h)
    rw [List.cons_append, closeSplit, if_neg (fun h => hc h.1), ih']
    rfl

theorem word_not_ws {c : Char} (h : isWordChar c = true) : c.isWhitespace = false := by
  by_contra hws
  rw [Bool.not_eq_false, Char.isWhitespace] at hws
  simp only [Bool.or_eq_true, decide_eq_true_eq] at hws
  rcases hws with ((rfl | rfl) | rfl) | rfl <;> exact absurd h (by decide)

theorem dropWhile_ws_eq_self {l : List Char} (h : ∀ x ∈ l, x.isWhitespace = false) :
    List.dropWhile Char.isWhitespace l = l := by
  cases l with
  | nil => rfl
  | cons a as =>
    rw [List.dropWhile_cons, if_neg]
    simp [h a (List.mem_cons_self a as)]

theorem trimWs_pad {name : List Char} (hall : name.all isWordChar = true)
    (hne : name ≠ []) : trimWs (' ' :: name ++ [' ']) = name := by
  have hnws : ∀ x ∈ name, x.isWhitespace = false := fun x hx =>
    word_not_ws (List.all_eq_true.mp hall x hx)
  rw [trimWs]
  have h1 : List.dropWhile Char.isWhitespace (' ' :: name ++ [' ']) = name ++ [' '] := by
    rw [List.cons_append, List.dropWhile_cons, if_pos (by decide)]
    cases name with
    | nil => exact absurd rfl hne
    | cons n0 rest =>
      rw [List.cons_append, List.dropWhile_cons, if_neg]
      simp [hnws n0 (List.mem_cons_self n0 rest)]
  have h2 : (name ++ [' ']).reverse = ' ' :: name.reverse := by simp
  rw [h1, h2, List.dropWhile_cons, if_pos (by decide),
    dropWhile_ws_eq_self (fun x hx => hnws x (List.mem_reverse.mp hx)),
    List.reverse_reverse]

theorem jinjaRender_append_lit {values : String → Option String} {l₁ l₂ : List Char}
    (h1 : '{' ∉ l₁) :
    jinjaRender values (l₁ ++ l₂) = (jinjaRender values l₂).map fun out => l₁ ++ out := by
  induction l₁ with
  | nil => cases h : jinjaRender values l₂ <;> simp [h, Except.map]
  | cons c cs ih =>
    have hc : c ≠ '{' := fun h => h1 (h ▸ List.mem_cons_self c cs)
    have ih' := ih fun h => h1 (List.mem_cons_of_mem c h)
    rw [List.cons_append, jinjaRender, List.length_cons, jinjaGo,
      if_neg (fun hh => hc hh.1)]
    show (match jinjaRender values (cs ++ l₂) with
      | Except.error err => Except.error err
      | Except.ok out => Except.ok (c :: out)) = _
    rw [ih']
    cases h : jinjaRender values l₂ <;> simp [Except.map]

theorem jinjaRender_var_inv {values : String → Option String} {a m out : List Char}
    (ha : '}' ∉ a)
    (h : jinjaRender values ('{' :: '{' :: (a ++ '}' :: '}' :: m)) = .ok out) :
    ∃ lit out', evalExpr values (trimWs a) = .ok lit ∧
      jinjaRender values m = .ok out' ∧ out = lit ++ out' := by
  rw [jinjaRender] at h
  simp only [List.length_cons] at h
  rw [jinjaGo, if_pos ⟨rfl, rfl⟩, List.tail_cons, closeSplit_append ha] at h
  dsimp only at h
  have hfm : m.length ≤ (a ++ '}' :: '}' :: m).length + 1 := by simp; omega
  rw [jinjaRender_fuel hfm] at h
  cases he : evalExpr values (trimWs a) with
  | error e => rw [he] at h; simp at h
  | ok lit =>
    rw [he] at h
    cases hrm : jinjaRender values m with
    | error e => rw [hrm] at h; simp at h
    | ok out' =>
      rw [hrm] at h
      simp only [Except.ok.injEq] at h
      exact ⟨lit, out', rfl, rfl, h.symm⟩

/-- Opening-brace-free strings stay free of adjacent opening braces. -/
theorem hasOpen_of_no_brace {l : List Char} (h : '{' ∉ l) : hasOpen l = false := by
  have h2 := hasOpen_append (b := []) h rfl
  simpa using h2

/-- Rendering a template in which every opening brace lies inside a
`\x7b\x7bword\x7d\x7d` placeholder, with values free of the character `\x7b`, yields
output free of `\x7b`: the literal text contributes no opening brace by hypothesis, and
each placeholder becomes a constant literal, a supplied value or an integer literal,
none of which contains one. -/
theorem subPH_render_no_brace {values : String → Option String}
    (hv : ∀ k s, values k = some s → '{' ∉ s.toList) :
    ∀ (n : Nat) (l out : List Char), l.length ≤ n → onlyPHOpensGo l.length l = true →
      jinjaRender values (subPH l) = .ok out → '{' ∉ out := by
  intro n
  induction n using Nat.strong_induction_on with
  | _ n ih =>
    intro l out hn hph hr
    match l with
    | [] =>
      have hout : out = [] := by
        rw [show subPH ([] : List Char) = [] from rfl,
          show jinjaRender values [] = Except.ok [] from rfl] at hr
        injection hr with h
        exact h.symm
      rw [hout]
      simp
    | c :: cs =>
      rw [List.length_cons, onlyPHOpensGo] at hph
      simp only [List.length_cons] at hn
      cases hm : matchPH (c :: cs) with
      | some p =>
        obtain ⟨w, r⟩ := p
        rw [hm] at hph
        dsimp only at hph
        have hlen := matchPH_length hm
        simp only [List.length_cons] at hlen
        have heq := onlyPHOpensGo_fuel_eq cs.length cs.length r.length r
          (by omega) (Nat.le_refl _) (by omega)
        rw [heq] at hph
        obtain ⟨hlform, hwne, hwall⟩ := matchPH_eq_some hm
        have hsub : subPH (c :: cs)
            = '{' :: '{' :: ' ' :: (w ++ ' ' :: '}' :: '}' :: subPH r) := by
          rw [subPH, List.length_cons, subPHGo, hm]
          dsimp only
          rw [subPH_fuel (by omega : r.length ≤ cs.length)]
        rw [hsub] at hr
        have hshape : ('{' :: '{' :: ' ' :: (w ++ ' ' :: '}' :: '}' :: subPH r) : List Char)
            = '{' :: '{' :: ((' ' :: w ++ [' ']) ++ '}' :: '}' :: subPH r) := by
          simp
        rw [hshape] at hr
        have hws : '}' ∉ ' ' :: w ++ [' '] := by
          intro hmem
          rcases List.mem_cons.mp hmem with h | h
          · exact absurd h (by decide)
          · rcases List.mem_append.mp h with h | h
            · exact absurd (List.all_eq_true.mp hwall _ h) (by decide)
            · exact absurd (List.mem_singleton.mp h) (by decide)
        obtain ⟨lit, out', hlit, hr', hout⟩ := jinjaRender_var_inv hws hr
        rw [trimWs_pad hwall hwne] at hlit
        have hlitnb : '{' ∉ lit := evalExpr_word_no_brace hv hwall hlit
        have hout' : '{' ∉ out' := ih r.length (by omega) r out' (Nat.le_refl _) hph hr'
        rw [hout]
        intro hmem
        rcases List.mem_append.mp hmem with h | h
        · exact hlitnb h
        · exact hout' h
      | none =>
        rw [hm] at hph
        simp only [Bool.and_eq_true, decide_eq_true_eq] at hph
        obtain ⟨hc, hph'⟩ := hph
        have hsub : subPH (c :: cs) = c :: subPH cs := by
          rw [subPH, List.length_cons, subPHGo, hm, subPH_fuel (Nat.le_refl _)]
        rw [hsub] at hr
        have happ := @jinjaRender_append_lit values [c] (subPH cs) (by simpa using Ne.symm hc)
        rw [show ([c] ++ subPH cs : List Char) = c :: subPH cs from rfl] at happ
        rw [happ] at hr
        cases hrcs : jinjaRender values (subPH cs) with
        | error e => rw [hrcs] at hr; simp [Except.map] at hr
        | ok out' =>
          rw [hrcs] at hr
          simp only [Except.map, Except.ok.injEq] at hr
          have hcs' : '{' ∉ out' := ih cs.length (by omega) cs out' (Nat.le_refl _) hph' hrcs
          rw [← hr]
          intro hmem
          rcases List.mem_cons.mp hmem with heq | h
          · exact hc heq.symm
          · exact hcs' h

/-- Lifts `subPH_render_no_brace` to a whole command list. -/
theorem render_commands_no_brace {values : String → Option String}
    (hv : ∀ k s, values k = some s → '{' ∉ s.toList) :
    ∀ (cmds out : List String), (∀ cmd ∈ cmds, onlyPHOpens cmd = true) →
      render_commands cmds values = .ok out → ∀ o ∈ out, '{' ∉ o.toList := by
  intro cmds
  induction cmds with
  | nil =>
    intro out hph h o ho
    rw [render_commands] at h
    simp only [Except.ok.injEq] at h
    subst h
    simp at ho
  | cons cmd rest ih =>
    intro out hph h o ho
    rw [render_commands] at h
    cases hr1 : jinjaRender values (subPH cmd.toList) with
    | error e => rw [hr1] at h; simp at h
    | ok x =>
      rw [hr1] at h
      cases hr2 : render_commands rest values with
      | error e => rw [hr2] at h; simp at h
      | ok outs =>
        rw [hr2] at h
        simp only [Except.ok.injEq] at h
        subst h
        rcases List.mem_cons.mp ho with rfl | hmem
        · rw [toList_asString]
          exact subPH_render_no_brace hv cmd.toList.length cmd.toList x (Nat.le_refl _)
            (hph cmd (List.mem_cons_self cmd rest)) hr1
        · exact ih outs (fun c hc => hph c (List.mem_cons_of_mem cmd hc)) hr2 o hmem

/-- Value mapping of the C8 counterexample: `x` and `y` map to values that each contain
no `\x7b\x7b...\x7d\x7d` syntax but concatenate to a fresh placeholder. -/
def c8values : String → Option String :=
  fun k => if k = "x" then some "\x7b" else if k = "y" then some "\x7bz\x7d\x7d" else none

/-- C8 (counterexample): the round-trip claim fails on the code.  For the template
`{{x}}{{y}}` the mapping `c8values` has domain exactly the extracted placeholders
`{x, y}` and neither value contains `{{...}}` syntax (no adjacent opening braces),
yet rendering yields `{{z}}` — the value of `x` ends in an opening brace and the value
of `y` completes the braces — and re-extraction yields `{z}`, not the empty set.  The
last three conjuncts show the template side of the same failure: the command
`echo {{ "{" }}{{ "{" }}x}}` extracts no placeholder (so the empty mapping has exactly
the extracted domain, vacuously brace-free), yet Jinja2 renders its two string-literal
expressions to opening braces, the output is `echo {{x}}` and re-extraction yields
`{x}`. -/
theorem render_roundtrip_cex :
    (∀ k, (c8values k).isSome = true ↔
      k ∈ extract_placeholders ["\x7b\x7bx\x7d\x7d\x7b\x7by\x7d\x7d"]) ∧
    (∀ k s, c8values k = some s → hasOpen s.toList = false) ∧
    render_commands ["\x7b\x7bx\x7d\x7d\x7b\x7by\x7d\x7d"] c8values
      = .ok ["\x7b\x7bz\x7d\x7d"] ∧
    extract_placeholders ["\x7b\x7bz\x7d\x7d"] ≠ [] ∧
    extract_placeholders ["echo \x7b\x7b \"\x7b\" \x7d\x7d\x7b\x7b \"\x7b\" \x7d\x7dx\x7d\x7d"]
      = [] ∧
    render_commands ["echo \x7b\x7b \"\x7b\" \x7d\x7d\x7b\x7b \"\x7b\" \x7d\x7dx\x7d\x7d"]
      (fun _ => none) = .ok ["echo \x7b\x7bx\x7d\x7d"] ∧
    extract_placeholders ["echo \x7b\x7bx\x7d\x7d"] = ["x"] := by
  refine ⟨?_, ?_, rfl, by decide, by decide, rfl, by decide⟩
  · have hex : extract_placeholders ["\x7b\x7bx\x7d\x7d\x7b\x7by\x7d\x7d"]
        = ["x", "y"] := by decide
    intro k
    rw [hex]
    by_cases hx : k = "x"
    · subst hx; simp [c8values]
    · by_cases hy : k = "y"
      · subst hy; simp [c8values]
      · simp [c8values, hx, hy]
  · intro k s h
    simp only [c8values] at h
    by_cases hx : k = "x"
    · rw [if_pos hx] at h; injection h with h; subst h; decide
    · rw [if_neg hx] at h
      by_cases hy : k = "y"
      · rw [if_pos hy] at h; injection h with h; subst h; decide
      · rw [if_neg hy] at h; cases h

/-- C8 (amended): rendering a command list in which every opening-brace character
occurs inside a `\x7b\x7bword\x7d\x7d` placeholder, with a value mapping whose domain
is exactly the extracted placeholders and whose values contain no opening-brace
character, then extracting placeholders from the rendered output, yields the empty
set.  Both restrictions are forced by the counterexample: values may otherwise splice
into a fresh placeholder, and braces outside placeholders may otherwise rebuild one
through Jinja2 string-literal expressions. -/
theorem render_roundtrip (cmds : List String) (values : String → Option String)
    (out : List String)
    (hcmds : ∀ cmd ∈ cmds, onlyPHOpens cmd = true)
    (hdom : ∀ k, (values k).isSome = true ↔ k ∈ extract_placeholders cmds)
    (hv : ∀ k s, values k = some s → '{' ∉ s.toList)
    (hr : render_commands cmds values = .ok out) :
    extract_placeholders out = [] := by
  apply extract_placeholders_eq_nil
  intro o ho
  exact hasOpen_of_no_brace (render_commands_no_brace hv cmds out hcmds hr o ho)

/-- Value mapping of the C8 witness. -/
def w8values : String → Option String := fun k => if k = "x" then some "hello" else none

/-- Witness for the amended C8 theorem at the concrete input `echo {{x}}` with
`x` mapped to `hello`. -/
theorem render_roundtrip_witness :
    (∀ cmd ∈ (["echo \x7b\x7bx\x7d\x7d"] : List String), onlyPHOpens cmd = true) ∧
    (∀ k, (w8values k).isSome = true ↔
      k ∈ extract_placeholders ["echo \x7b\x7bx\x7d\x7d"]) ∧
    (∀ k s, w8values k = some s → '{' ∉ s.toList) ∧
    render_commands ["echo \x7b\x7bx\x7d\x7d"] w8values = .ok ["echo hello"] ∧
    extract_placeholders ["echo hello"] = [] := by
  have hdom : ∀ k, (w8values k).isSome = true ↔
      k ∈ extract_placeholders ["echo \x7b\x7bx\x7d\x7d"] := by
    have hex : extract_placeholders ["echo \x7b\x7bx\x7d\x7d"] = ["x"] := by decide
    intro k
    rw [hex]
    by_cases hx : k = "x"
    · subst hx; simp [w8values]
    · simp [w8values, hx]
  have hv : ∀ k s, w8values k = some s → '{' ∉ s.toList := by
    intro k s h
    simp only [w8values] at h
    by_cases hx : k = "x"
    · rw [if_pos hx] at h; injection h with h; subst h; decide
    · rw [if_neg hx] at h; cases h
  exact ⟨by decide, hdom, hv, rfl,
    render_roundtrip _ w8values _ (by decide) hdom hv rfl⟩

/-! ### The execution engine -/

theorem runAllGo_fst (shell : Nat → String → Nat) :
    ∀ (l : List String) (k : Nat), (runAllGo shell k l).1 = l := by
  intro l
  induction l with
  | nil => intro k; rfl
  | cons cmd rest ih =>
    intro k
    rw [runAllGo]
    dsimp only
    rw [ih (k + 1)]

theorem runAllGo_mem_lower (shell : Nat → String → Nat) :
    ∀ (l : List String) (k i : Nat) (c : String) (code : Nat),
      (i, c, code) ∈ (runAllGo shell k l).2 → k + 1 ≤ i := by
  intro l
  induction l with
  | nil => intro k i c code h; simp [runAllGo] at h
  | cons cmd rest ih =>
    intro k i c code h
    rw [runAllGo] at h
    dsimp only at h
    by_cases hc : shell k cmd ≠ 0
    · rw [if_pos hc] at h
      rcases List.mem_cons.mp h with heq | hmem
      · have : i = k + 1 := congrArg Prod.fst heq
        omega
      · have := ih (k + 1) i c code hmem
        omega
    · rw [if_neg hc] at h
      have := ih (k + 1) i c code h
      omega

theorem runAllGo_mem (shell : Nat → String → Nat) :
    ∀ (l : List String) (k j : Nat) (c : String) (code : Nat),
      ((k + j + 1, c, code) ∈ (runAllGo shell k l).2) ↔
        (l[j]? = some c ∧ shell (k + j) c = code ∧ code ≠ 0) := by
  intro l
  induction l with
  | nil => intro k j c code; simp [runAllGo]
  | cons cmd rest ih =>
    intro k j c code
    rw [runAllGo]
    dsimp only
    cases j with
    | zero =>
      simp only [Nat.add_zero, List.getElem?_cons_zero, Option.some.injEq]
      by_cases hc : shell k cmd ≠ 0
      · rw [if_pos hc]
        constructor
        · intro h
          rcases List.mem_cons.mp h with heq | hmem
          · simp only [Prod.mk.injEq] at heq
            obtain ⟨-, h2, h3⟩ := heq
            refine ⟨h2.symm, ?_, ?_⟩
            · rw [h2]; exact h3.symm
            · intro h0
              rw [h3] at h0
              exact hc h0
          · have := runAllGo_mem_lower shell rest (k + 1) (k + 1) c code hmem
            omega
        · rintro ⟨rfl, h2, h3⟩
          rw [← h2]
          exact List.mem_cons_self _ _
      · rw [if_neg hc]
        constructor
        · intro h
          have := runAllGo_mem_lower shell rest (k + 1) (k + 1) c code h
          omega
        · rintro ⟨rfl, h2, h3⟩
          rw [Decidable.not_not] at hc
          exact (h3 (by omega)).elim
    | succ j =>
      have hidx : k + (j + 1) + 1 = (k + 1) + j + 1 := by omega
      rw [hidx, List.getElem?_cons_succ]
      have hsh : k + (j + 1) = (k + 1) + j := by omega
      rw [hsh]
      by_cases hc : shell k cmd ≠ 0
      · rw [if_pos hc]
        rw [List.mem_cons]
        have hne : ((k + 1) + j + 1, c, code) ≠ (k + 1, cmd, shell k cmd) := by
          intro heq
          have : (k + 1) + j + 1 = k + 1 := congrArg Prod.fst heq
          omega
        simp only [hne, false_or]
        exact ih (k + 1) j c code
      · rw [if_neg hc]
        exact ih (k + 1) j c code

/-- C1: in the default RunAll mode the engine spawns every rendered command in order
(never short-circuiting), the failure list contains exactly the triples
`(index, command, exit code)` of the failing commands with 1-based indices, the verdict
is success (exit 0) iff no command failed and the aggregate exit code is 1 when any
did.  The last three conjuncts check the `[0, 1, 0]` example: all three commands are
spawned and the failure list is exactly `[(2, "b", 1)]`. -/
theorem run_all_spec (workflow_name : String) (rendered : List String)
    (shell : Nat → String → Nat) :
    (execute workflow_name false false false rendered shell).spawned = rendered ∧
    (∀ i c code,
      (i, c, code) ∈ (execute workflow_name false false false rendered shell).failed ↔
        (1 ≤ i ∧ rendered[i - 1]? = some c ∧ shell (i - 1) c = code ∧ code ≠ 0)) ∧
    ((execute workflow_name false false false rendered shell).exitCode = 0 ↔
      (execute workflow_name false false false rendered shell).failed = []) ∧
    ((execute workflow_name false false false rendered shell).failed ≠ [] →
      (execute workflow_name false false false rendered shell).exitCode = 1) ∧
    (execute "w" false false false ["a", "b", "c"]
      (fun k _ => if k = 1 then 1 else 0)).spawned = ["a", "b", "c"] ∧
    (execute "w" false false false ["a", "b", "c"]
      (fun k _ => if k = 1 then 1 else 0)).failed = [(2, "b", 1)] ∧
    (execute "w" false false false ["a", "b", "c"]
      (fun k _ => if k = 1 then 1 else 0)).exitCode = 1 := by
  refine ⟨runAllGo_fst shell rendered 0, ?_, ?_, ?_, by decide, by decide, by decide⟩
  · intro i c code
    show (i, c, code) ∈ (runAllGo shell 0 rendered).2 ↔ _
    constructor
    · intro h
      have h1 := runAllGo_mem_lower shell rendered 0 i c code h
      have hi : i = 0 + (i - 1) + 1 := by omega
      rw [hi] at h
      have := (runAllGo_mem shell rendered 0 (i - 1) c code).mp h
      refine ⟨by omega, ?_, ?_, this.2.2⟩
      · exact this.1
      · have h0 : 0 + (i - 1) = i - 1 := by omega
        rw [h0] at this
        exact this.2.1
    · rintro ⟨h1, h2, h3, h4⟩
      have hi : i = 0 + (i - 1) + 1 := by omega
      rw [hi]
      apply (runAllGo_mem shell rendered 0 (i - 1) c code).mpr
      have h0 : 0 + (i - 1) = i - 1 := by omega
      rw [h0]
      exact ⟨h2, h3, h4⟩
  · have hfail : (execute workflow_name false false false rendered shell).failed
        = (runAllGo shell 0 rendered).2 := rfl
    have hexit : (execute workflow_name false false false rendered shell).exitCode
        = (if (runAllGo shell 0 rendered).2 ≠ [] then 1 else 0) := rfl
    rw [hexit, hfail]
    split
    · rename_i hne
      simp [hne]
    · rename_i hne
      rw [Decidable.not_not] at hne
      simp [hne]
  · intro hne
    have hfail : (execute workflow_name false false false rendered shell).failed
        = (runAllGo shell 0 rendered).2 := rfl
    have hexit : (execute workflow_name false false false rendered shell).exitCode
        = (if (runAllGo shell 0 rendered).2 ≠ [] then 1 else 0) := rfl
    rw [hfail] at hne
    rw [hexit, if_pos hne]

/-- C2: invoking `run` with both stop-on-fail and stop-on-success fails validation
immediately with exit code 1, before the registry is loaded (`configLoaded = false`),
with zero processes spawned and zero prompts. -/
theorem run_mode_conflict (workflow_name : String) (dry : Bool) (ctx_args : List String)
    (config : Config) (shell : Nat → String → Nat) (promptFn : String → String) :
    run workflow_name dry true true ctx_args config shell promptFn =
      .ok { exitCode := 1, configLoaded := false, spawned := [], failed := [],
            prompted := [], preview := [] } := rfl

/-- C3: with the dry-run flag set the engine spawns zero child processes and exits 0,
whatever the mode flags and the rendered command list. -/
theorem execute_dry_run (workflow_name : String) (stop_on_fail stop_on_success : Bool)
    (rendered : List String) (shell : Nat → String → Nat) :
    (execute workflow_name true stop_on_fail stop_on_success rendered shell).spawned = [] ∧
    (execute workflow_name true stop_on_fail stop_on_success rendered shell).exitCode = 0 :=
  ⟨rfl, rfl⟩

/-- C4: in StopOnFail mode the engine joins the rendered commands with the logical AND
operator, spawns exactly that one command line, and its exit code is the chained
process's exit code, propagated verbatim; the verdict is success iff the chain
exits 0. -/
theorem execute_stop_on_fail (workflow_name : String) (stop_on_success : Bool)
    (rendered : List String) (shell : Nat → String → Nat) :
    (execute workflow_name false true stop_on_success rendered shell).spawned
      = [String.intercalate " && " rendered] ∧
    (execute workflow_name false true stop_on_success rendered shell).exitCode
      = shell 0 (String.intercalate " && " rendered) ∧
    ((execute workflow_name false true stop_on_success rendered shell).exitCode = 0 ↔
      shell 0 (String.intercalate " && " rendered) = 0) ∧
    (execute workflow_name false true stop_on_success rendered shell).failed = [] := by
  have hcode : (execute workflow_name false true stop_on_success rendered shell).exitCode
      = shell 0 (String.intercalate " && " rendered) := by
    show (if shell 0 (String.intercalate " && " rendered) ≠ 0 then
      shell 0 (String.intercalate " && " rendered) else 0) = _
    split
    · rfl
    · rename_i h
      rw [Decidable.not_not] at h
      rw [h]
  exact ⟨rfl, hcode, by rw [hcode], rfl⟩

/-! ### The dry-run preview -/

theorem previewLines_get :
    ∀ (l : List String) (i j : Nat) (c : String), l[j]? = some c →
      (previewLines i l)[j]? =
        some ("  [dim][" ++ toString (i + j) ++ "][/dim] [cyan]" ++ c ++ "[/cyan]") := by
  intro l
  induction l with
  | nil => intro i j c h; simp at h
  | cons cmd rest ih =>
    intro i j c h
    cases j with
    | zero =>
      rw [List.getElem?_cons_zero, Option.some.injEq] at h
      subst h
      rw [previewLines, List.getElem?_cons_zero, Nat.add_zero]
    | succ j =>
      rw [List.getElem?_cons_succ] at h
      rw [previewLines, List.getElem?_cons_succ, ih (i + 1) j c h]
      have : i + 1 + j = i + (j + 1) := by omega
      rw [this]

/-- C6 (counterexample): in StopOnFail dry-run mode with rendered commands
`["aa", "bb"]` the preview consists of a header, a mode line and one line per rendered
command; the joined command line `aa && bb` does not occur in (or as) any printed line,
contradicting the claim that the preview reports the single joined command line rather
than only listing each rendered command individually. -/
theorem dry_preview_cex :
    dryRunPreview "w" true false ["aa", "bb"] =
      ["\n[bold]Dry run: w[/bold]", "  [dim]Mode:[/dim] stop on first failure (&&)",
       "  [dim][1][/dim] [cyan]aa[/cyan]", "  [dim][2][/dim] [cyan]bb[/cyan]"] ∧
    (∀ line ∈ dryRunPreview "w" true false ["aa", "bb"],
      ¬ ((String.intercalate " && " ["aa", "bb"]).toList <:+: line.toList)) :=
  ⟨by decide, by decide⟩

/-- C6 (amended): in the chained modes the dry-run preview consists of exactly a
header, a mode line naming the chain operator (`(&&)` for stop-on-fail, `(||)` for
stop-on-success), and one line per rendered command carrying its 1-based index and
text; the joined command line is not part of the preview. -/
theorem dry_preview_spec (workflow_name : String) (rendered : List String) :
    dryRunPreview workflow_name true false rendered =
      ("\n[bold]Dry run: " ++ workflow_name ++ "[/bold]") ::
        "  [dim]Mode:[/dim] stop on first failure (&&)" :: previewLines 1 rendered ∧
    dryRunPreview workflow_name false true rendered =
      ("\n[bold]Dry run: " ++ workflow_name ++ "[/bold]") ::
        "  [dim]Mode:[/dim] stop on first success (||)" :: previewLines 1 rendered ∧
    ("(&&)".toList <:+: "  [dim]Mode:[/dim] stop on first failure (&&)".toList) ∧
    ("(||)".toList <:+: "  [dim]Mode:[/dim] stop on first success (||)".toList) ∧
    (∀ j c, rendered[j]? = some c → (previewLines 1 rendered)[j]? =
      some ("  [dim][" ++ toString (j + 1) ++ "][/dim] [cyan]" ++ c ++ "[/cyan]")) := by
  refine ⟨rfl, rfl, by decide, by decide, ?_⟩
  intro j c h
  rw [previewLines_get rendered 1 j c h, Nat.add_comm]

/-! ### The value resolver -/

theorem insertSorted_perm (s : String) :
    ∀ l : List String, (insertSorted s l).Perm (s :: l) := by
  intro l
  induction l with
  | nil => exact List.Perm.refl _
  | cons t ts ih =>
    rw [insertSorted]
    split
    · exact List.Perm.refl _
    · exact (List.Perm.cons t ih).trans (List.Perm.swap s t ts)

theorem sortStrings_perm : ∀ l : List String, (sortStrings l).Perm l := by
  intro l
  induction l with
  | nil => exact List.Perm.refl _
  | cons s ss ih =>
    rw [sortStrings]
    exact (insertSorted_perm s (sortStrings ss)).trans (List.Perm.cons s ih)

theorem prompt_missing_mono (promptFn : String → String) :
    ∀ (ps : List String) (values : String → Option String) (q : String),
      (values q).isSome = true → ((prompt_missing ps values promptFn).1 q).isSome = true := by
  intro ps
  induction ps with
  | nil => intro values q h; exact h
  | cons p qs ih =>
    intro values q h
    rw [prompt_missing]
    split
    · exact ih values q h
    · dsimp only
      apply ih
      simp only [insertVal]
      split
      · rfl
      · exact h

theorem prompt_missing_covers (promptFn : String → String) :
    ∀ (ps : List String) (values : String → Option String),
      ∀ p ∈ ps, ((prompt_missing ps values promptFn).1 p).isSome = true := by
  intro ps
  induction ps with
  | nil => intro values p hp; simp at hp
  | cons q qs ih =>
    intro values p hp
    rw [prompt_missing]
    split
    · rename_i hq
      rcases List.mem_cons.mp hp with rfl | hmem
      · exact prompt_missing_mono promptFn qs values p hq
      · exact ih values p hmem
    · dsimp only
      rcases List.mem_cons.mp hp with rfl | hmem
      · apply prompt_missing_mono
        simp [insertVal]
      · exact ih _ p hmem

theorem prompt_missing_preserve (promptFn : String → String) :
    ∀ (ps : List String) (values : String → Option String) (k v : String),
      values k = some v →
      (prompt_missing ps values promptFn).1 k = some v ∧
        k ∉ (prompt_missing ps values promptFn).2 := by
  intro ps
  induction ps with
  | nil => intro values k v h; exact ⟨h, by simp [prompt_missing]⟩
  | cons p qs ih =>
    intro values k v h
    rw [prompt_missing]
    split
    · exact ih values k v h
    · rename_i hp
      dsimp only
      have hkp : k ≠ p := by
        intro heq
        rw [← heq, h] at hp
        simp at hp
      have hih := ih (insertVal values p (promptFn p)) k v (by simp [insertVal, hkp, h])
      refine ⟨hih.1, ?_⟩
      intro hmem
      rcases List.mem_cons.mp hmem with heq | hmem2
      · exact hkp heq
      · exact hih.2 hmem2

theorem prompt_missing_trace (promptFn : String → String) :
    ∀ (ps : List String) (values : String → Option String), ps.Nodup →
      (prompt_missing ps values promptFn).2 = ps.filter fun p => (values p).isNone := by
  intro ps
  induction ps with
  | nil => intro values _; rfl
  | cons p qs ih =>
    intro values hnd
    obtain ⟨hp_not_mem, hnd'⟩ := List.nodup_cons.mp hnd
    rw [prompt_missing, List.filter_cons]
    split
    · rename_i hsome
      rw [if_neg (by simp [Option.isNone_iff_eq_none]; exact Option.isSome_iff_ne_none.mp hsome)]
      exact ih values hnd'
    · rename_i hsome
      dsimp only
      have hpn : (values p).isNone = true := by
        cases hv : values p with
        | none => rfl
        | some s => rw [hv] at hsome; simp at hsome
      rw [if_pos hpn]
      rw [ih (insertVal values p (promptFn p)) hnd']
      congr 1
      apply List.filter_congr
      intro q hq
      have hqp : q ≠ p := fun h => hp_not_mem (h ▸ hq)
      simp [insertVal, hqp]

/-- One scanner step at a `--key value` pair: the key is recorded (overwriting any
earlier value) and scanning continues after the pair. -/
theorem parse_cli_args_pair (a v : String) (ha : startsDashDash a = true)
    (hv : startsDashDash v = false) (l : List String) (m : String → Option String) :
    parse_cli_args (a :: v :: l) m = parse_cli_args l (insertVal m (dropDashes a) v) := by
  rw [parse_cli_args, if_pos ha, if_neg (by simp [hv])]

/-- The scanner always reaches a `--`-token: a token starting with `--` is never
consumed as a value, so scanning `l₁` followed by `a :: rest` (with `a` dashed) is
scanning `l₁` alone and then continuing at `a` with the accumulated mapping. -/
theorem parse_cli_args_append (a : String) (ha : startsDashDash a = true) :
    ∀ (n : Nat) (l₁ rest : List String) (m : String → Option String), l₁.length ≤ n →
      parse_cli_args (l₁ ++ a :: rest) m
        = parse_cli_args (a :: rest) (parse_cli_args l₁ m) := by
  intro n
  induction n with
  | zero =>
    intro l₁ rest m hl
    match l₁ with
    | [] => rfl
    | _ :: _ => simp at hl
  | succ n ih =>
    intro l₁ rest m hl
    match l₁ with
    | [] => rfl
    | [t] =>
      rw [show ([t] ++ a :: rest : List String) = t :: a :: rest from rfl,
        parse_cli_args, parse_cli_args]
      by_cases ht : startsDashDash t
      · rw [if_pos ht, if_pos ha]
      · rw [if_neg (by simp [ht])]
    | t1 :: t2 :: l' =>
      simp only [List.length_cons] at hl
      rw [show ((t1 :: t2 :: l') ++ a :: rest : List String)
        = t1 :: t2 :: (l' ++ a :: rest) from rfl, parse_cli_args]
      by_cases h1 : startsDashDash t1
      · by_cases h2 : startsDashDash t2
        · rw [if_pos h1, if_pos h2]
          rw [show (t2 :: (l' ++ a :: rest) : List String)
            = (t2 :: l') ++ a :: rest from rfl]
          rw [ih (t2 :: l') rest m (by simp only [List.length_cons]; omega)]
          conv_rhs => rw [parse_cli_args, if_pos h1, if_pos h2]
        · rw [if_pos h1, if_neg (by simp [h2])]
          rw [ih l' rest (insertVal m (dropDashes t1) t2) (by omega)]
          conv_rhs => rw [parse_cli_args, if_pos h1, if_neg (by simp [h2])]
      · rw [if_neg (by simp [h1])]
        rw [show (t2 :: (l' ++ a :: rest) : List String)
          = (t2 :: l') ++ a :: rest from rfl]
        rw [ih (t2 :: l') rest m (by simp only [List.length_cons]; omega)]
        conv_rhs => rw [parse_cli_args, if_neg (by simp [h1])]

/-- The scanner only ever adds keys: a key present in the mapping stays present. -/
theorem parse_cli_args_mono :
    ∀ (n : Nat) (l : List String) (m : String → Option String) (k : String),
      l.length ≤ n → (m k).isSome = true → ((parse_cli_args l m) k).isSome = true := by
  intro n
  induction n with
  | zero =>
    intro l m k hl h
    match l with
    | [] => exact h
    | _ :: _ => simp at hl
  | succ n ih =>
    intro l m k hl h
    match l with
    | [] => exact h
    | [t] => exact h
    | t1 :: t2 :: l' =>
      simp only [List.length_cons] at hl
      rw [parse_cli_args]
      by_cases h1 : startsDashDash t1
      · by_cases h2 : startsDashDash t2
        · rw [if_pos h1, if_pos h2]
          exact ih (t2 :: l') m k (by simp only [List.length_cons]; omega) h
        · rw [if_pos h1, if_neg (by simp [h2])]
          apply ih l' _ k (by omega)
          simp only [insertVal]
          split
          · rfl
          · exact h
      · rw [if_neg (by simp [h1])]
        exact ih (t2 :: l') m k (by simp only [List.length_cons]; omega) h

/-- C7: for every placeholder list and every trailing token list, the value resolver
returns a mapping covering every placeholder, and the prompted keys are exactly the
placeholders the CLI parse left unresolved, in the order of the sorted placeholder
list; every key the CLI parse resolved keeps its CLI-supplied value and is never
prompted; wherever a `--key value` pair occurs in the tokens (the value not starting
with `--`), the parse records it there and only later tokens can overwrite it — so the
key is CLI-resolved and the last occurrence wins, as the final conjunct states for a
pair in last position with arbitrary (possibly repeating) earlier tokens. -/
theorem collect_placeholder_values_spec (placeholders cli_args : List String)
    (promptFn : String → String) (hnd : placeholders.Nodup) :
    (∀ p ∈ placeholders,
      ((collect_placeholder_values placeholders cli_args promptFn).1 p).isSome = true) ∧
    ((collect_placeholder_values placeholders cli_args promptFn).2 =
      (sortStrings placeholders).filter
        fun p => (parse_cli_args cli_args (fun _ => none) p).isNone) ∧
    (∀ k v, parse_cli_args cli_args (fun _ => none) k = some v →
      (collect_placeholder_values placeholders cli_args promptFn).1 k = some v ∧
        k ∉ (collect_placeholder_values placeholders cli_args promptFn).2) ∧
    (∀ l₁ a v l₂, cli_args = l₁ ++ a :: v :: l₂ → startsDashDash a = true →
      startsDashDash v = false →
      parse_cli_args cli_args (fun _ => none)
        = parse_cli_args l₂
            (insertVal (parse_cli_args l₁ fun _ => none) (dropDashes a) v)) ∧
    (∀ l₁ a v l₂, cli_args = l₁ ++ a :: v :: l₂ → startsDashDash a = true →
      startsDashDash v = false →
      (parse_cli_args cli_args (fun _ => none) (dropDashes a)).isSome = true) ∧
    (∀ l a v, cli_args = l ++ [a, v] → startsDashDash a = true →
      startsDashDash v = false →
      parse_cli_args cli_args (fun _ => none) (dropDashes a) = some v) := by
  have hchar : ∀ (l₁ : List String) (a v : String) (l₂ : List String),
      cli_args = l₁ ++ a :: v :: l₂ → startsDashDash a = true →
      startsDashDash v = false →
      parse_cli_args cli_args (fun _ => none)
        = parse_cli_args l₂
            (insertVal (parse_cli_args l₁ fun _ => none) (dropDashes a) v) := by
    intro l₁ a v l₂ hargs ha hv
    rw [hargs, parse_cli_args_append a ha l₁.length l₁ (v :: l₂) _ (Nat.le_refl _),
      parse_cli_args_pair a v ha hv]
  refine ⟨?_, ?_, ?_, hchar, ?_, ?_⟩
  · intro p hp
    exact prompt_missing_covers promptFn (sortStrings placeholders) _ p
      ((sortStrings_perm placeholders).mem_iff.mpr hp)
  · exact prompt_missing_trace promptFn (sortStrings placeholders) _
      ((sortStrings_perm placeholders).nodup_iff.mpr hnd)
  · intro k v hk
    exact prompt_missing_preserve promptFn (sortStrings placeholders)
      (parse_cli_args cli_args fun _ => none) k v hk
  · intro l₁ a v l₂ hargs ha hv
    rw [hchar l₁ a v l₂ hargs ha hv]
    apply parse_cli_args_mono l₂.length l₂ _ _ (Nat.le_refl _)
    simp [insertVal]
  · intro l a v hargs ha hv
    rw [hchar l a v [] hargs ha hv]
    show insertVal (parse_cli_args l fun _ => none) (dropDashes a) v (dropDashes a)
      = some v
    simp [insertVal]

/-- Witness for C7 at placeholders `{a, b}` and trailing tokens `--a x1 --a x2`: the
final two conjuncts evaluate the resolver there — `a` resolves to `x2` (last occurrence
wins, no prompt) and only `b` is prompted. -/
theorem collect_placeholder_values_witness :
    (["b", "a"] : List String).Nodup ∧
    ((∀ p ∈ (["b", "a"] : List String),
      ((collect_placeholder_values ["b", "a"] ["--a", "x1", "--a", "x2"]
        (fun _ => "w")).1 p).isSome = true) ∧
    ((collect_placeholder_values ["b", "a"] ["--a", "x1", "--a", "x2"]
        (fun _ => "w")).2 =
      (sortStrings ["b", "a"]).filter
        fun p => (parse_cli_args ["--a", "x1", "--a", "x2"] (fun _ => none) p).isNone) ∧
    (∀ k v, parse_cli_args ["--a", "x1", "--a", "x2"] (fun _ => none) k = some v →
      (collect_placeholder_values ["b", "a"] ["--a", "x1", "--a", "x2"]
        (fun _ => "w")).1 k = some v ∧
        k ∉ (collect_placeholder_values ["b", "a"] ["--a", "x1", "--a", "x2"]
          (fun _ => "w")).2) ∧
    (∀ l₁ a v l₂, (["--a", "x1", "--a", "x2"] : List String) = l₁ ++ a :: v :: l₂ →
      startsDashDash a = true → startsDashDash v = false →
      parse_cli_args ["--a", "x1", "--a", "x2"] (fun _ => none)
        = parse_cli_args l₂
            (insertVal (parse_cli_args l₁ fun _ => none) (dropDashes a) v)) ∧
    (∀ l₁ a v l₂, (["--a", "x1", "--a", "x2"] : List String) = l₁ ++ a :: v :: l₂ →
      startsDashDash a = true → startsDashDash v = false →
      (parse_cli_args ["--a", "x1", "--a", "x2"] (fun _ => none)
        (dropDashes a)).isSome = true) ∧
    (∀ l a v, (["--a", "x1", "--a", "x2"] : List String) = l ++ [a, v] →
      startsDashDash a = true → startsDashDash v = false →
      parse_cli_args ["--a", "x1", "--a", "x2"] (fun _ => none)
        (dropDashes a) = some v)) ∧
    (collect_placeholder_values ["b", "a"] ["--a", "x1", "--a", "x2"]
      (fun _ => "w")).1 "a" = some "x2" ∧
    (collect_placeholder_values ["b", "a"] ["--a", "x1", "--a", "x2"]
      (fun _ => "w")).2 = ["b"] :=
  ⟨by decide,
    collect_placeholder_values_spec ["b", "a"] ["--a", "x1", "--a", "x2"]
      (fun _ => "w") (by decide),
    by decide, by decide⟩

/-! ### The save command -/

/-- C9: saving under a name already present in the registry fails with exit code 1 and
performs no mutation — the registry value is unchanged, hence so are the number of
workflows and the existing entry. -/
theorem save_duplicate (name : String) (commands : List String) (config : Config)
    (h : (List.lookup name config.workflows).isSome = true) :
    save name commands config = (1, config) ∧
    (save name commands config).2.workflows.length = config.workflows.length ∧
    List.lookup name (save name commands config).2.workflows
      = List.lookup name config.workflows := by
  have hs : save name commands config = (1, config) := by
    by_cases hcmd : commands = []
    · rw [save, if_pos hcmd]
    · rw [save, if_neg hcmd, if_pos h]
  exact ⟨hs, by rw [hs], by rw [hs]⟩

/-- Witness for C9: a second save of `deploy` fails and the registry, its length and
the stored entry are untouched. -/
theorem save_duplicate_witness :
    (List.lookup "deploy"
      (Config.mk [("deploy", Workflow.mk ["echo hi"] [])]).workflows).isSome = true ∧
    (save "deploy" ["echo again"] (Config.mk [("deploy", Workflow.mk ["echo hi"] [])])
        = (1, Config.mk [("deploy", Workflow.mk ["echo hi"] [])]) ∧
      (save "deploy" ["echo again"]
        (Config.mk [("deploy", Workflow.mk ["echo hi"] [])])).2.workflows.length
        = (Config.mk [("deploy", Workflow.mk ["echo hi"] [])]).workflows.length ∧
      List.lookup "deploy" (save "deploy" ["echo again"]
        (Config.mk [("deploy", Workflow.mk ["echo hi"] [])])).2.workflows
        = List.lookup "deploy"
            (Config.mk [("deploy", Workflow.mk ["echo hi"] [])]).workflows) :=
  ⟨by decide,
    save_duplicate "deploy" ["echo again"]
      (Config.mk [("deploy", Workflow.mk ["echo hi"] [])]) (by decide)⟩

/-- C10: rendering is not a literal pass-through.  The template `{{a b}}` contains a
brace sequence that is not of the form `{{word}}` — `extract_placeholders` finds no
placeholder in it, so substituting `{{word}}` placeholders would leave it unchanged —
yet `render_commands` raises a template-syntax error, because after the rewriting step
the text is handed to the general Jinja2 template engine, which rejects the expression
`a b`. -/
theorem render_not_passthrough :
    extract_placeholders ["\x7b\x7ba b\x7d\x7d"] = [] ∧
    render_commands ["\x7b\x7ba b\x7d\x7d"] (fun _ => none)
      = .error .templateSyntaxError :=
  ⟨by decide, rfl⟩

end Cmdkit
